import Mathlib

/-
Verification of the streaming-event reducer and graph-simplification engine
of the training-plan knowledge-graph frontend.

The definitions below are a shallow embedding of the JavaScript source:
  - the stream decoder and event loop of `startGraphGeneration` (App),
  - the agent-status projection of `ProcessLog` (`latestAgentRuntime`,
    `agentProgress`) and `ProcessFlow` (`agentRuntimeMap`),
  - the graph simplifier `buildDisplayGraph` with its noise filter
    `isNoiseNodeName`, degree ranking, per-type quotas, relationship
    dedup/ceilings and final node selection,
  - the layout parameters set on the force graph (`d3Force` charge
    strength and per-relation link distance).

JS strings are modelled as Lean `String`; absent (undefined/null) fields as
`Option`; JS truthiness of a string is "present and non-empty"; JS `x || d`
on strings is `jsOrString`; JS `Set.has` / array membership is list
membership.  JS `Array.prototype.sort` (stable since ES2019) with the
comparator `(a, b) => deg(b) - deg(a)` is modelled by a stable insertion
sort descending by degree.
-/

/-- Raw entity of the graph payload: `{id, name, type, category?}`.
An absent `name` behaves like the empty string under `String(name || '')`. -/
structure Entity where
  id : String
  name : String
  type : Option String := none
  category : Option String := none
deriving DecidableEq, Repr

/-- Raw relationship `{head, tail, relation}`. -/
structure Relationship where
  head : String
  tail : String
  relation : String
deriving DecidableEq, Repr

/-- Output link: `{source: rel.head, target: rel.tail, ...rel}`. -/
structure Link where
  source : String
  target : String
  head : String
  tail : String
  relation : String
deriving DecidableEq, Repr

/-- Raw graph payload `data.data = {entities, relationships}`. -/
structure RawGraph where
  entities : List Entity
  relationships : List Relationship
deriving DecidableEq, Repr

/-- Simplified graph `{nodes, links}` returned by `buildDisplayGraph`. -/
structure DisplayGraph where
  nodes : List Entity
  links : List Link
deriving DecidableEq, Repr

/-- Wire event record `{event_type, step_id, agent_id?, agent_status?, message?, data?}`. -/
structure Event where
  event_type : Option String := none
  step_id : Option Int := none
  agent_id : Option String := none
  agent_status : Option String := none
  message : Option String := none
  data : Option RawGraph := none
deriving DecidableEq, Repr

/-- JS truthiness of a possibly-absent string: present and non-empty. -/
def truthyStr (v : Option String) : Bool :=
  match v with
  | some s => !(s == "")
  | none => false

/-- JS truthiness of a possibly-absent number: present and non-zero. -/
def truthyInt (v : Option Int) : Bool :=
  match v with
  | some n => !(n == 0)
  | none => false

/-- JS `v || d` on a possibly-absent string: the empty string is falsy. -/
def jsOrString (v : Option String) (d : String) : String :=
  match v with
  | some s => if s == "" then d else s
  | none => d

/- ## Stream Decoder

`startGraphGeneration` keeps a carry-over `buffer`, appends each decoded
chunk, splits on newline, pops the final (possibly incomplete) segment back
into the buffer and processes every complete line; a blank line
(`!line.trim()`) is skipped and each remaining line is JSON-parsed.  The
leftover buffer at end-of-stream is discarded.  We model text as `List Char`;
the state is (emitted complete lines, current buffer). -/

/-- One character of buffering: a newline completes the current line. -/
def lineStep (st : List (List Char) × List Char) (c : Char) :
    List (List Char) × List Char :=
  if c = '\n' then (st.1 ++ [st.2], []) else (st.1, st.2 ++ [c])

/-- Feed one chunk: `buffer += chunk; lines = buffer.split('\n'); buffer = lines.pop()`. -/
def feedChunk (st : List (List Char) × List Char) (chunk : List Char) :
    List (List Char) × List Char :=
  chunk.foldl lineStep st

/-- All complete lines emitted over a whole chunked stream; the final
(incomplete) buffer is dropped, as the loop ends on `done`. -/
def decodeChunks (chunks : List (List Char)) : List (List Char) :=
  (chunks.foldl feedChunk ([], [])).1

/-- The parsed records of the stream: blank lines are skipped
(`if (!line.trim()) continue`), the rest go through the JSON parser,
modelled by an arbitrary per-line partial function `parse`
(a line that fails to parse is skipped by the `try`/`catch`). -/
def emitRecords {α : Type} (parse : List Char → Option α)
    (chunks : List (List Char)) : List α :=
  (decodeChunks chunks).filterMap
    (fun line => if line.all Char.isWhitespace then none else parse line)

/- ## Event Reducer

The loop body of `startGraphGeneration`: append to the process log when the
event carries a truthy `message`; recompute the displayed step from a truthy
`step_id` (`<=2 -> 1, <=4 -> 2, <=6 -> 3, else 4`); on `data.data` with
`step_id === 7` store the payload, force step 4 and mark the graph ready. -/

/-- Reducer state: the pieces of React state the loop mutates. -/
structure RunState where
  processLogs : List Event
  currentStep : Nat
  graphData : Option RawGraph
  isGraphReady : Bool
deriving Repr

/-- The fixed `step_id` to macro-stage mapping of the loop. -/
def stepToStage (s : Int) : Nat :=
  if s ≤ 2 then 1
  else if s ≤ 4 then 2
  else if s ≤ 6 then 3
  else 4

/-- Apply one decoded event to the run state (loop body order: log append,
then step update, then terminal-payload handling). -/
def applyEvent (st : RunState) (e : Event) : RunState :=
  let st₁ := if truthyStr e.message then
      { st with processLogs := st.processLogs ++ [e] } else st
  let st₂ := if truthyInt e.step_id then
      { st₁ with currentStep := stepToStage (e.step_id.getD 0) } else st₁
  if e.data.isSome && (e.step_id == some 7) then
    { st₂ with graphData := e.data, currentStep := 4, isGraphReady := true }
  else st₂

/-- Left fold of the reducer over a decoded event sequence. -/
def reduceEvents (st : RunState) (es : List Event) : RunState :=
  es.foldl applyEvent st

/-- The truthy `step_id` values of an event sequence, in order. -/
def truthySteps (es : List Event) : List Int :=
  es.filterMap (fun e => if truthyInt e.step_id then e.step_id else none)

/- ## Agent Status Model (ProcessLog / ProcessFlow)

`ProcessLog` filters the log to `agent_status` events with a truthy
`agent_id`, folds them into a latest-entry-wins map
`{status: log.agent_status || 'idle', message: log.message || ''}`, and
computes `agentProgress = Math.round((doneCount / agentNodes.length) * 100)`
over its fixed 12-agent pipeline list, counting `done` and `blocked`. -/

/-- Latest status/message entry per agent id. -/
structure AgentRuntime where
  status : String
  message : String
deriving DecidableEq, Repr

/-- The filter of `ProcessLog.agentLogs` (and the skip condition of
`ProcessFlow.agentRuntimeMap`): `event_type === 'agent_status'` and truthy
`agent_id`. -/
def isAgentLog (e : Event) : Bool :=
  (e.event_type == some "agent_status") && truthyStr e.agent_id

/-- `agentLogs`: the agent-status events of the log, in order. -/
def agentLogs (logs : List Event) : List Event :=
  logs.filter isAgentLog

/-- `latestAgentRuntime[i]`: the map fold overwrites the entry on every
matching event, so the entry for an id is built from the last matching
event (full replacement, never a merge). -/
def latestAgentRuntime (logs : List Event) (i : String) : Option AgentRuntime :=
  ((agentLogs logs).filter (fun l => l.agent_id == some i)).getLast?.map
    (fun l => { status := jsOrString l.agent_status "idle"
                message := jsOrString l.message "" })

/-- The ids of the fixed, pre-enumerated `agentNodes` list of `ProcessLog`
(labels, icons and running-action texts omitted: only ids enter the math). -/
def agentNodeIds : List String :=
  ["start", "src-1", "src-2", "src-3", "src-4", "verify", "build",
   "graph-1", "graph-2", "graph-3", "end", "analyze"]

/-- `doneCount`: agents of the fixed list whose latest status is `done` or
`blocked`. -/
def doneCount (logs : List Event) : Nat :=
  agentNodeIds.countP (fun i =>
    match latestAgentRuntime logs i with
    | some r => (r.status == "done") || (r.status == "blocked")
    | none => false)

/-- `agentProgress = Math.round((doneCount / agentNodes.length) * 100)`;
`Math.round` is round-half-up, `round` on `ℚ`. -/
def agentProgress (logs : List Event) : ℤ :=
  round (((doneCount logs : ℚ) / (agentNodeIds.length : ℚ)) * 100)

/- ## Graph Simplifier (buildDisplayGraph) -/

/-- The digit class of the tier regex `第[0-9一二三四五六七八九十]+级`. -/
def tierDigits : List Char :=
  ['0', '1', '2', '3', '4', '5', '6', '7', '8', '9',
   '一', '二', '三', '四', '五', '六', '七', '八', '九', '十']

/-- Does the tier pattern match starting exactly at the head of the list?
Greedy digit run is correct because the digit class excludes `级`. -/
def hasTierAt (cs : List Char) : Bool :=
  match cs with
  | '第' :: rest =>
      let ds := rest.takeWhile (fun c => tierDigits.contains c)
      (!ds.isEmpty) &&
        (match rest.drop ds.length with
         | '级' :: _ => true
         | _ => false)
  | _ => false

/-- `RegExp.test`: does the tier pattern occur anywhere in the text? -/
def hasTierMatch : List Char → Bool
  | [] => false
  | c :: cs => hasTierAt (c :: cs) || hasTierMatch cs

/-- The fixed placeholder phrases of `isNoiseNodeName`. -/
def noisePlaceholders : List String :=
  ["补充节点", "专业能力补充", "关键技能补充", "职业素质补充",
   "支撑课程补充", "专业核心节点"]

/-- JS `String.prototype.trim` on a character list: strip whitespace from
both ends. -/
def trimChars (cs : List Char) : List Char :=
  ((cs.dropWhile Char.isWhitespace).reverse.dropWhile Char.isWhitespace).reverse

/-- `isNoiseNodeName`: blank after trimming, contains a placeholder phrase,
matches the tier pattern, or contains `几级`. -/
def isNoiseNodeName (name : String) : Bool :=
  let text := trimChars name.toList
  if text.isEmpty then true
  else if noisePlaceholders.any
      (fun k => decide (List.IsInfix k.toList text)) then true
  else if hasTierMatch text then true
  else if decide (List.IsInfix "几级".toList text) then true
  else false

/-- `rawNodes`: entities surviving the noise filter. -/
def noiseFilteredNodes (raw : RawGraph) : List Entity :=
  raw.entities.filter (fun n => !isNoiseNodeName n.name)

/-- `validNodeIds`: ids of the surviving entities. -/
def validNodeIds (raw : RawGraph) : List String :=
  (noiseFilteredNodes raw).map (·.id)

/-- `rawLinks`: relationships whose both endpoints survived the noise
filter. -/
def noiseFilteredRels (raw : RawGraph) : List Relationship :=
  raw.relationships.filter
    (fun l => (validNodeIds raw).contains l.head &&
              (validNodeIds raw).contains l.tail)

/-- `degree.get(i) || 0`: undirected degree of an id over a relationship
list — each occurrence as head adds one and each occurrence as tail adds
one (a self loop counts twice), exactly the two `degree.set` calls of the
source loop. -/
def degreeOf (rls : List Relationship) (i : String) : Nat :=
  rls.countP (fun l => l.head == i) + rls.countP (fun l => l.tail == i)

/-- Stable insertion step for descending sort: the inserted element came
earlier in the original order, so it goes before every element whose key is
not strictly greater. -/
def insertByDegDesc (key : Entity → Nat) (x : Entity) :
    List Entity → List Entity
  | [] => [x]
  | y :: ys =>
      if key x < key y then y :: insertByDegDesc key x ys else x :: y :: ys

/-- Stable sort descending by key: models the ES2019-stable
`Array.prototype.sort` with comparator `(a, b) => deg(b) - deg(a)`. -/
def sortByDegDesc (key : Entity → Nat) : List Entity → List Entity
  | [] => []
  | x :: xs => insertByDegDesc key x (sortByDegDesc key xs)

/-- The core types kept unconditionally. -/
def coreTypes : List String :=
  ["Major", "Capability", "Skill", "Quality", "Course"]

/-- `coreTypes.has(n.type)` — an absent type is never core. -/
def isCoreType (t : Option String) : Bool :=
  match t with
  | some s => coreTypes.contains s
  | none => false

/-- The `Job` entities ranked by descending degree (stable). -/
def jobsRanked (raw : RawGraph) : List Entity :=
  sortByDegDesc (fun n => degreeOf (noiseFilteredRels raw) n.id)
    ((noiseFilteredNodes raw).filter (fun n => n.type == some "Job"))

/-- `jobs`: the top 28 ranked `Job` entities. -/
def jobsKept (raw : RawGraph) : List Entity :=
  (jobsRanked raw).take 28

/-- The `Company` entities ranked by descending degree (stable). -/
def companiesRanked (raw : RawGraph) : List Entity :=
  sortByDegDesc (fun n => degreeOf (noiseFilteredRels raw) n.id)
    ((noiseFilteredNodes raw).filter (fun n => n.type == some "Company"))

/-- `companies`: the top 20 ranked `Company` entities. -/
def companiesKept (raw : RawGraph) : List Entity :=
  (companiesRanked raw).take 20

/-- `keptIds`: ids of all core entities, the quota-kept jobs and the
quota-kept companies. -/
def keptIds (raw : RawGraph) : List String :=
  ((noiseFilteredNodes raw).filter (fun n => isCoreType n.type)).map (·.id) ++
  (jobsKept raw).map (·.id) ++ (companiesKept raw).map (·.id)

/-- `relLimit[relation] ?? 100`: per-kind link ceilings. -/
def relLimit (relation : String) : Nat :=
  if relation == "TARGETS_JOB" then 40
  else if relation == "OFFERED_BY" then 30
  else if relation == "INCLUDES_SKILL" then 80
  else if relation == "SUPPORTS_CAPABILITY" then 60
  else if relation == "REQUIRES_QUALITY" then 50
  else if relation == "CULTIVATES_CAPABILITY" then 40
  else 100

/-- The dedup key `` `${rel.head}|${rel.relation}|${rel.tail}` ``. -/
def relKey (r : Relationship) : String :=
  r.head ++ "|" ++ r.relation ++ "|" ++ r.tail

/-- The link built by `links.push({source: rel.head, target: rel.tail, ...rel})`. -/
def mkLink (r : Relationship) : Link :=
  { source := r.head, target := r.tail,
    head := r.head, tail := r.tail, relation := r.relation }

/-- The dedup key of a pushed link, over its spread `head|relation|tail`
fields. -/
def linkKey (l : Link) : String :=
  l.head ++ "|" ++ l.relation ++ "|" ++ l.tail

/-- One iteration of the relationship loop over state (seenRel, links):
skip when an endpoint is not kept; skip duplicates of the key (the key is
recorded before the ceiling test); accept unless the running count of the
relation kind — which equals the number of accepted links of that kind —
has reached its ceiling. -/
def relStep (kept : List String) (acc : List String × List Link)
    (rel : Relationship) :
    List String × List Link :=
  if !(kept.contains rel.head && kept.contains rel.tail) then acc
  else if acc.1.contains (relKey rel) then acc
  else if relLimit rel.relation ≤
      acc.2.countP (fun l => l.relation == rel.relation) then
    (relKey rel :: acc.1, acc.2)
  else
    (relKey rel :: acc.1, acc.2 ++ [mkLink rel])

/-- `links`: the accepted relationships, in original order. -/
def linksOf (raw : RawGraph) : List Link :=
  ((noiseFilteredRels raw).foldl (relStep (keptIds raw)) ([], [])).2

/-- `usedIds`: every source and target of an accepted link. -/
def usedIds (raw : RawGraph) : List String :=
  (linksOf raw).foldl (fun s l => s ++ [l.source, l.target]) []

/-- `nodes`: surviving entities that are quota-kept and either referenced
by an accepted link or of a core type. -/
def nodesOf (raw : RawGraph) : List Entity :=
  (noiseFilteredNodes raw).filter
    (fun n => (keptIds raw).contains n.id &&
      ((usedIds raw).contains n.id || isCoreType n.type))

/-- `buildDisplayGraph(rawData)`: empty graph when every entity was
noise-filtered, otherwise the quota-reduced nodes and links. -/
def buildDisplayGraph (raw : RawGraph) : DisplayGraph :=
  if (noiseFilteredNodes raw).isEmpty then { nodes := [], links := [] }
  else { nodes := nodesOf raw, links := linksOf raw }

/-- Reading a link back as a relationship: its `head`/`tail`/`relation`
fields. -/
def relOfLink (l : Link) : Relationship :=
  { head := l.head, tail := l.tail, relation := l.relation }

/-- Feeding a simplified graph back in as a raw payload: nodes become
entities and links become relationships. -/
def toRawGraph (g : DisplayGraph) : RawGraph :=
  { entities := g.nodes, relationships := g.links.map relOfLink }

/- ## Layout Parameter Controller (GraphContainer d3 forces) -/

/-- The constant repulsive `charge` strength set for every node. -/
def chargeStrength : Int := -180

/-- The relation kinds the link-distance function recognizes explicitly. -/
def recognizedRelations : List String :=
  ["TARGETS_JOB", "OFFERED_BY", "INCLUDES_SKILL",
   "REQUIRES_QUALITY", "SUPPORTS_CAPABILITY"]

/-- The target `link` distance as a function of the relation kind. -/
def linkDistance (relation : String) : Nat :=
  if relation == "TARGETS_JOB" then 80
  else if relation == "OFFERED_BY" then 60
  else if relation == "INCLUDES_SKILL" then 85
  else if relation == "REQUIRES_QUALITY" then 90
  else if relation == "SUPPORTS_CAPABILITY" then 95
  else 75

/- ## Concrete inputs used by counterexamples and witnesses -/

/-- A run state as it stands when the event loop begins (the UI has already
set `currentStep` to 2 before the stream is read). -/
def startedRun : RunState :=
  { processLogs := [], currentStep := 2, graphData := none, isGraphReady := false }

/-- An event carrying only a `step_id`. -/
def evStep (s : Int) : Event := { step_id := some s }

/-- An `agent_status` event with a present `agent_id` but no `message`. -/
def evAgentNoMsg : Event :=
  { event_type := some "agent_status", agent_id := some "src-1" }

/-- An `agent_status` event whose `agent_status` is the empty string. -/
def evEmptyStatus : Event :=
  { event_type := some "agent_status", agent_id := some "src-1",
    agent_status := some "" }

/-- A `running` event for `src-1`. -/
def evRunning : Event :=
  { event_type := some "agent_status", agent_id := some "src-1",
    agent_status := some "running", message := some "working" }

/-- A `done` event for a given agent id. -/
def evDoneFor (i : String) : Event :=
  { event_type := some "agent_status", agent_id := some i,
    agent_status := some "done", message := some "ok" }

/- ## Stream Decoder lemmas -/

/-- Folding the decoder chunk by chunk equals folding character by
character over the concatenated stream. -/
lemma decodeChunks_eq_flatten (chunks : List (List Char)) :
    chunks.foldl feedChunk (([], []) : List (List Char) × List Char) =
      chunks.flatten.foldl lineStep ([], []) := by
  rw [List.foldl_flatten]
  rfl

/-- C3: for every logical character stream and every two chunkings of it,
the Stream Decoder emits the same ordered sequence of parsed records:
chunk boundaries (including boundaries inside a line) never change the
output sequence. -/
theorem claim3_chunking_invariant {α : Type} (parse : List Char → Option α)
    (chunks₁ chunks₂ : List (List Char))
    (h : chunks₁.flatten = chunks₂.flatten) :
    emitRecords parse chunks₁ = emitRecords parse chunks₂ := by
  unfold emitRecords decodeChunks
  rw [decodeChunks_eq_flatten, decodeChunks_eq_flatten, h]

/-- C3 witness: splitting the stream `a\nb` inside or at the line break
yields the same records. -/
theorem claim3_witness :
    ([['a'], ['\n', 'b']] : List (List Char)).flatten =
      ([['a', '\n'], ['b']] : List (List Char)).flatten ∧
    emitRecords (fun l => some l.length) [['a'], ['\n', 'b']] =
      emitRecords (fun l => some l.length) [['a', '\n'], ['b']] :=
  ⟨by decide, claim3_chunking_invariant _ _ _ (by decide)⟩

/- ## Event Reducer lemmas -/

lemma applyEvent_processLogs (st : RunState) (e : Event) :
    (applyEvent st e).processLogs =
      st.processLogs ++ if truthyStr e.message then [e] else [] := by
  unfold applyEvent
  by_cases hm : truthyStr e.message <;> by_cases hs : truthyInt e.step_id <;>
    by_cases hd : (e.data.isSome && (e.step_id == some 7)) = true <;>
      simp [hm, hs, hd]

lemma stepToStage_seven : stepToStage 7 = 4 := by decide

lemma applyEvent_currentStep (st : RunState) (e : Event) :
    (applyEvent st e).currentStep =
      if truthyInt e.step_id then stepToStage (e.step_id.getD 0)
      else st.currentStep := by
  unfold applyEvent
  by_cases hd : (e.data.isSome && (e.step_id == some 7)) = true
  · have hA : e.data.isSome = true := ((Bool.and_eq_true _ _).mp hd).1
    have h7 : e.step_id = some 7 := by
      have := (Bool.and_eq_true _ _).mp hd
      simpa [beq_iff_eq] using this.2
    have ht : truthyInt (some (7 : Int)) = true := by decide
    simp [hd, hA, ht, h7, stepToStage_seven]
  · by_cases hs : truthyInt e.step_id <;> by_cases hm : truthyStr e.message <;>
      simp [hd, hs, hm]

/-- C2 (amended): the log after the fold is exactly the events whose
`message` is present and non-empty, in arrival order — membership in the
log is decided by the `message` field alone, not by `event_type` or
`agent_id`. -/
theorem claim2_log_is_message_filter (st : RunState) (es : List Event) :
    (reduceEvents st es).processLogs =
      st.processLogs ++ es.filter (fun e => truthyStr e.message) := by
  induction es generalizing st with
  | nil => simp [reduceEvents]
  | cons e es ih =>
      show (reduceEvents (applyEvent st e) es).processLogs = _
      rw [ih, applyEvent_processLogs]
      by_cases hm : truthyStr e.message <;> simp [hm, List.filter_cons]

/-- C2 counterexample: a successfully parsed `agent_status` event with a
present `agent_id` but no `message` is omitted from the log. -/
theorem claim2_counterexample :
    isAgentLog evAgentNoMsg = true ∧
    (reduceEvents startedRun [evAgentNoMsg]).processLogs = [] := by decide

lemma reduceEvents_currentStep (st : RunState) (es : List Event) :
    (reduceEvents st es).currentStep =
      ((truthySteps es).map stepToStage).getLastD st.currentStep := by
  induction es generalizing st with
  | nil => simp [reduceEvents, truthySteps]
  | cons e es ih =>
      show (reduceEvents (applyEvent st e) es).currentStep = _
      rw [ih, applyEvent_currentStep]
      by_cases hs : truthyInt e.step_id = true
      · obtain ⟨n, hn⟩ : ∃ n, e.step_id = some n := by
          cases h : e.step_id with
          | none => rw [h] at hs; simp [truthyInt] at hs
          | some n => exact ⟨n, rfl⟩
        have hs' : truthyInt (some n) = true := by rwa [hn] at hs
        have hts : truthySteps (e :: es) = n :: truthySteps es := by
          simp [truthySteps, List.filterMap_cons, hn, hs']
        rw [hts, if_pos hs, hn]
        simp only [List.map_cons, List.getLastD_cons, Option.getD_some]
      · have hts : truthySteps (e :: es) = truthySteps es := by
          simp [truthySteps, List.filterMap_cons, hs]
        rw [hts, if_neg hs]

lemma stepToStage_mono {a b : Int} (h : a ≤ b) :
    stepToStage a ≤ stepToStage b := by
  unfold stepToStage
  split_ifs <;> omega

/-- C1 (amended): the `step_id` to stage mapping is monotone, so across an
event sequence whose truthy `step_id` values are monotone non-decreasing
the displayed stages are monotone non-decreasing, and the final displayed
stage is the stage of the last truthy `step_id` (the prior stage if none);
the code keeps no running maximum, so monotonicity of the input sequence is
required. -/
theorem claim1_stage_monotone (es : List Event) (st : RunState)
    (h : (truthySteps es).Chain' (· ≤ ·)) :
    ((truthySteps es).map stepToStage).Chain' (· ≤ ·) ∧
    (reduceEvents st es).currentStep =
      ((truthySteps es).map stepToStage).getLastD st.currentStep :=
  ⟨(List.chain'_map _).mpr (h.imp fun _ _ hab => stepToStage_mono hab),
   reduceEvents_currentStep st es⟩

/-- C1 counterexample: an event with `step_id` 5 displays stage 3, and a
later event with the lower `step_id` 1 reduces the displayed stage to 1 —
the displayed stage does not only advance. -/
theorem claim1_counterexample :
    (reduceEvents startedRun [evStep 5]).currentStep = 3 ∧
    (reduceEvents startedRun [evStep 5, evStep 1]).currentStep = 1 := by
  decide

/-- C1 witness: a monotone event sequence 1, 3, 7. -/
theorem claim1_witness :
    ((truthySteps [evStep 1, evStep 3, evStep 7]).map stepToStage).Chain'
      (· ≤ ·) ∧
    (reduceEvents startedRun [evStep 1, evStep 3, evStep 7]).currentStep =
      ((truthySteps [evStep 1, evStep 3, evStep 7]).map
        stepToStage).getLastD startedRun.currentStep :=
  claim1_stage_monotone _ _ (by
    have h : truthySteps [evStep 1, evStep 3, evStep 7] = [1, 3, 7] := rfl
    rw [h]
    simp [List.chain'_cons])

/- ## Agent Status Model lemmas -/

/-- C7 (amended): for an `agent_status` event with a present, non-empty
`agent_id`, the reducer's map entry for that id becomes exactly
`{status: agent_status || 'idle', message: message || ''}` — a full
replacement computed from the new event alone, independent of every prior
entry (JS `||`, so an empty-string `agent_status` also falls back to
`idle`). -/
theorem claim7_full_replacement (logs : List Event) (e : Event) (i : String)
    (h1 : e.event_type = some "agent_status") (h2 : e.agent_id = some i)
    (h3 : i ≠ "") :
    latestAgentRuntime (logs ++ [e]) i =
      some { status := jsOrString e.agent_status "idle"
             message := jsOrString e.message "" } := by
  unfold latestAgentRuntime agentLogs
  have ha : isAgentLog e = true := by
    simp [isAgentLog, h1, h2, truthyStr, h3]
  have hb : (e.agent_id == some i) = true := by simp [h2]
  simp [List.filter_append, List.filter_cons, ha, hb, List.getLast?_concat]

/-- C7 counterexample: an event whose `agent_status` is the present empty
string yields the entry status `idle` (code `||`), where the claim's
`agent_status ?? 'idle'` would yield the empty string. -/
theorem claim7_counterexample :
    evEmptyStatus.agent_status = some "" ∧
    latestAgentRuntime [evEmptyStatus] "src-1" =
      some { status := "idle", message := "" } ∧
    (evEmptyStatus.agent_status.getD "idle" : String) = "" := by decide

/-- C7 witness: a `running` event followed by a `done` event for `src-1`
leaves the entry of the `done` event — full replacement, and the final
status is `done`. -/
theorem claim7_witness :
    latestAgentRuntime ([evRunning] ++ [evDoneFor "src-1"]) "src-1" =
      some { status := jsOrString (evDoneFor "src-1").agent_status "idle"
             message := jsOrString (evDoneFor "src-1").message "" } ∧
    jsOrString (evDoneFor "src-1").agent_status "idle" = "done" :=
  ⟨claim7_full_replacement [evRunning] (evDoneFor "src-1") "src-1"
      rfl rfl (by decide),
   by decide⟩

lemma latestAgentRuntime_append_other (logs : List Event) (e : Event)
    (i : String) (h : e.agent_id ≠ some i) :
    latestAgentRuntime (logs ++ [e]) i = latestAgentRuntime logs i := by
  unfold latestAgentRuntime agentLogs
  have hb : (e.agent_id == some i) = false := by
    simpa using h
  by_cases ha : isAgentLog e = true <;>
    simp [List.filter_append, List.filter_cons, ha, hb]

lemma doneCount_append_other (logs : List Event) (e : Event)
    (h : ∀ i ∈ agentNodeIds, e.agent_id ≠ some i) :
    doneCount (logs ++ [e]) = doneCount logs := by
  unfold doneCount
  refine List.countP_congr ?_
  intro i hi
  rw [latestAgentRuntime_append_other logs e i (h i hi)]

/-- C8: the aggregate progress percentage equals
`round(100 * doneOrBlockedCount / totalAgentCount)` over the fixed,
pre-enumerated pipeline agent-id list, and an event naming an `agent_id`
outside that fixed list never changes the percentage. -/
theorem claim8_progress_formula (logs : List Event) (e : Event)
    (h : ∀ i ∈ agentNodeIds, e.agent_id ≠ some i) :
    agentProgress logs =
      round ((100 * (doneCount logs : ℚ)) / ((agentNodeIds.length : ℚ))) ∧
    agentProgress (logs ++ [e]) = agentProgress logs := by
  constructor
  · unfold agentProgress
    congr 1
    ring
  · unfold agentProgress
    rw [doneCount_append_other logs e h]

/-- C8 witness: one completed agent of the fixed list, then an event for
the unknown id `zzz` which leaves the percentage unchanged. -/
theorem claim8_witness :
    (agentProgress [evDoneFor "start"] =
      round ((100 * (doneCount [evDoneFor "start"] : ℚ)) /
        ((agentNodeIds.length : ℚ)))) ∧
    agentProgress ([evDoneFor "start"] ++ [evDoneFor "zzz"]) =
      agentProgress [evDoneFor "start"] :=
  claim8_progress_formula _ _ (by decide)

/- ## Layout Parameter Controller -/

/-- C9: the layout controller supplies one constant charge strength
(−180) for all nodes, and a link distance that is a pure function of the
relation kind, pairwise distinct on the five explicitly recognized kinds,
none of which equals the single fallback length 75 used for every
unrecognized kind. -/
theorem claim9_layout_parameters :
    chargeStrength = -180 ∧
    List.Pairwise (fun r₁ r₂ => linkDistance r₁ ≠ linkDistance r₂)
      recognizedRelations ∧
    (∀ r ∈ recognizedRelations, linkDistance r ≠ 75) ∧
    (∀ r, r ∉ recognizedRelations → linkDistance r = 75) := by
  refine ⟨rfl, by decide, by decide, ?_⟩
  intro r hr
  simp only [recognizedRelations, List.mem_cons, List.not_mem_nil, or_false,
    not_or] at hr
  obtain ⟨h1, h2, h3, h4, h5⟩ := hr
  simp [linkDistance, h1, h2, h3, h4, h5]

/-- C9 witness: `CULTIVATES_CAPABILITY` (recognized by the link ceilings
but not by the distance function) gets the fallback length. -/
theorem claim9_witness : linkDistance "CULTIVATES_CAPABILITY" = 75 :=
  claim9_layout_parameters.2.2.2 _ (by decide)

/- ## Graph Simplifier: basic lemmas -/

lemma contains_iff_mem {l : List String} {x : String} :
    l.contains x = true ↔ x ∈ l :=
  List.elem_iff

lemma foldl_usedAcc (links : List Link) (s : List String) :
    links.foldl (fun s l => s ++ [l.source, l.target]) s =
      s ++ links.flatMap (fun l => [l.source, l.target]) := by
  induction links generalizing s with
  | nil => simp
  | cons l ls ih => simp [ih, List.flatMap_cons]

lemma mem_usedIds {raw : RawGraph} {x : String} :
    x ∈ usedIds raw ↔ ∃ l ∈ linksOf raw, x = l.source ∨ x = l.target := by
  unfold usedIds
  rw [foldl_usedAcc]
  simp [List.mem_flatMap]

lemma mem_keptIds {raw : RawGraph} {x : String} :
    x ∈ keptIds raw ↔
      (∃ n ∈ noiseFilteredNodes raw, isCoreType n.type = true ∧ n.id = x) ∨
      (∃ n ∈ jobsKept raw, n.id = x) ∨
      (∃ n ∈ companiesKept raw, n.id = x) := by
  unfold keptIds
  simp [List.mem_append, List.mem_map, List.mem_filter, and_assoc]

lemma mem_nodesOf {raw : RawGraph} {n : Entity} :
    n ∈ nodesOf raw ↔
      n ∈ noiseFilteredNodes raw ∧ (keptIds raw).contains n.id = true ∧
        ((usedIds raw).contains n.id = true ∨ isCoreType n.type = true) := by
  unfold nodesOf
  simp [List.mem_filter, Bool.and_eq_true, Bool.or_eq_true, and_assoc]

lemma buildDisplayGraph_eq (raw : RawGraph) :
    buildDisplayGraph raw = { nodes := nodesOf raw, links := linksOf raw } := by
  unfold buildDisplayGraph
  split_ifs with h
  · have h1 : noiseFilteredNodes raw = [] := by
      simpa [List.isEmpty_iff] using h
    have h2 : noiseFilteredRels raw = [] := by
      unfold noiseFilteredRels validNodeIds
      rw [h1]
      simp [List.filter_eq_nil_iff]
    have h3 : linksOf raw = [] := by unfold linksOf; rw [h2]; rfl
    have h4 : nodesOf raw = [] := by unfold nodesOf; rw [h1]; rfl
    rw [h3, h4]
  · rfl

lemma nf_subset_entities {raw : RawGraph} {n : Entity}
    (h : n ∈ noiseFilteredNodes raw) : n ∈ raw.entities :=
  List.mem_of_mem_filter h

lemma nf_ids_nodup {raw : RawGraph}
    (hN : (raw.entities.map (·.id)).Nodup) :
    ((noiseFilteredNodes raw).map (·.id)).Nodup :=
  ((List.filter_sublist _).map _).nodup hN

lemma nf_inj {raw : RawGraph} (hN : (raw.entities.map (·.id)).Nodup)
    {m n : Entity} (hm : m ∈ noiseFilteredNodes raw)
    (hn : n ∈ noiseFilteredNodes raw) (h : m.id = n.id) : m = n :=
  List.inj_on_of_nodup_map (nf_ids_nodup hN) hm hn h

/- ## Stable descending insertion sort lemmas -/

lemma insertByDegDesc_perm (key : Entity → Nat) (x : Entity)
    (l : List Entity) : (insertByDegDesc key x l).Perm (x :: l) := by
  induction l with
  | nil => simp [insertByDegDesc]
  | cons y ys ih =>
      unfold insertByDegDesc
      split_ifs with h
      · exact (ih.cons y).trans (List.Perm.swap x y ys)
      · exact List.Perm.refl _

lemma sortByDegDesc_perm (key : Entity → Nat) (l : List Entity) :
    (sortByDegDesc key l).Perm l := by
  induction l with
  | nil => simp [sortByDegDesc]
  | cons x xs ih =>
      exact (insertByDegDesc_perm key x _).trans (ih.cons x)

lemma insertByDegDesc_sorted (key : Entity → Nat) (x : Entity)
    {l : List Entity}
    (h : l.Pairwise (fun a b => key b ≤ key a)) :
    (insertByDegDesc key x l).Pairwise (fun a b => key b ≤ key a) := by
  induction l with
  | nil => simp [insertByDegDesc]
  | cons y ys ih =>
      unfold insertByDegDesc
      split_ifs with hxy
      · refine List.Pairwise.cons ?_ (ih h.tail)
        intro b hb
        have hb' : b ∈ x :: ys := (insertByDegDesc_perm key x ys).mem_iff.mp hb
        rcases List.mem_cons.mp hb' with rfl | hb''
        · exact Nat.le_of_lt hxy
        · exact List.rel_of_pairwise_cons h hb''
      · refine List.Pairwise.cons ?_ h
        intro b hb
        rcases List.mem_cons.mp hb with rfl | hb'
        · exact Nat.le_of_not_lt hxy
        · exact le_trans (List.rel_of_pairwise_cons h hb') (Nat.le_of_not_lt hxy)

lemma sortByDegDesc_sorted (key : Entity → Nat) (l : List Entity) :
    (sortByDegDesc key l).Pairwise (fun a b => key b ≤ key a) := by
  induction l with
  | nil => simp [sortByDegDesc]
  | cons x xs ih => exact insertByDegDesc_sorted key x ih

lemma insertByDegDesc_filter_ne (key : Entity → Nat) (x : Entity)
    (l : List Entity) {d : Nat} (h : ¬ key x = d) :
    (insertByDegDesc key x l).filter (fun a => key a == d) =
      l.filter (fun a => key a == d) := by
  induction l with
  | nil => simp [insertByDegDesc, List.filter_cons, h]
  | cons y ys ih =>
      unfold insertByDegDesc
      split_ifs with hxy
      · simp only [List.filter_cons, ih]
      · simp [List.filter_cons, h]

lemma insertByDegDesc_filter_eq (key : Entity → Nat) (x : Entity)
    (l : List Entity) :
    (insertByDegDesc key x l).filter (fun a => key a == key x) =
      x :: l.filter (fun a => key a == key x) := by
  induction l with
  | nil => simp [insertByDegDesc, List.filter_cons]
  | cons y ys ih =>
      unfold insertByDegDesc
      split_ifs with hxy
      · have hy : ¬ key y = key x := by omega
        simp only [List.filter_cons, ih]
        simp [hy]
      · simp [List.filter_cons]

lemma sortByDegDesc_stable (key : Entity → Nat) (l : List Entity)
    (d : Nat) :
    (sortByDegDesc key l).filter (fun a => key a == d) =
      l.filter (fun a => key a == d) := by
  induction l with
  | nil => simp [sortByDegDesc]
  | cons x xs ih =>
      show (insertByDegDesc key x (sortByDegDesc key xs)).filter _ = _
      by_cases hx : key x = d
      · subst hx
        rw [insertByDegDesc_filter_eq, ih]
        simp [List.filter_cons]
      · rw [insertByDegDesc_filter_ne key x _ hx, ih]
        simp [List.filter_cons, hx]

/- ## Quota lemmas -/

lemma mem_jobsKept {raw : RawGraph} {n : Entity} (h : n ∈ jobsKept raw) :
    n ∈ noiseFilteredNodes raw ∧ n.type = some "Job" := by
  have h1 : n ∈ jobsRanked raw := List.take_subset _ _ h
  have h2 : n ∈ (noiseFilteredNodes raw).filter
      (fun n => n.type == some "Job") :=
    (sortByDegDesc_perm _ _).mem_iff.mp h1
  have h3 := List.mem_filter.mp h2
  exact ⟨h3.1, by simpa [beq_iff_eq] using h3.2⟩

lemma mem_companiesKept {raw : RawGraph} {n : Entity}
    (h : n ∈ companiesKept raw) :
    n ∈ noiseFilteredNodes raw ∧ n.type = some "Company" := by
  have h1 : n ∈ companiesRanked raw := List.take_subset _ _ h
  have h2 : n ∈ (noiseFilteredNodes raw).filter
      (fun n => n.type == some "Company") :=
    (sortByDegDesc_perm _ _).mem_iff.mp h1
  have h3 := List.mem_filter.mp h2
  exact ⟨h3.1, by simpa [beq_iff_eq] using h3.2⟩

lemma keptIds_witness {raw : RawGraph} {x : String} (h : x ∈ keptIds raw) :
    ∃ n ∈ noiseFilteredNodes raw, n.id = x ∧
      (isCoreType n.type = true ∨ n.type = some "Job" ∨
        n.type = some "Company") := by
  rcases mem_keptIds.mp h with ⟨n, hn, hc, hid⟩ | ⟨n, hn, hid⟩ | ⟨n, hn, hid⟩
  · exact ⟨n, hn, hid, Or.inl hc⟩
  · obtain ⟨hnf, ht⟩ := mem_jobsKept hn
    exact ⟨n, hnf, hid, Or.inr (Or.inl ht)⟩
  · obtain ⟨hnf, ht⟩ := mem_companiesKept hn
    exact ⟨n, hnf, hid, Or.inr (Or.inr ht)⟩

/- ## Relationship loop invariants -/

lemma relStep_preserves (kept : List String)
    (acc : List String × List Link) (rel : Relationship)
    (hks : ∀ l ∈ acc.2, linkKey l ∈ acc.1)
    (hpw : acc.2.Pairwise (fun a b => linkKey a ≠ linkKey b))
    (hep : ∀ l ∈ acc.2, l.head = l.source ∧ l.tail = l.target ∧
      kept.contains l.source = true ∧ kept.contains l.tail = true)
    (hct : ∀ s, acc.2.countP (fun l => l.relation == s) ≤ relLimit s) :
    (∀ l ∈ (relStep kept acc rel).2, linkKey l ∈ (relStep kept acc rel).1) ∧
    (relStep kept acc rel).2.Pairwise (fun a b => linkKey a ≠ linkKey b) ∧
    (∀ l ∈ (relStep kept acc rel).2,
      l.head = l.source ∧ l.tail = l.target ∧
      kept.contains l.source = true ∧ kept.contains l.tail = true) ∧
    (∀ s, (relStep kept acc rel).2.countP (fun l => l.relation == s) ≤
      relLimit s) := by
  unfold relStep
  split_ifs with h1 h2 h3
  · exact ⟨hks, hpw, hep, hct⟩
  · exact ⟨hks, hpw, hep, hct⟩
  · exact ⟨fun l hl => List.mem_cons_of_mem _ (hks l hl), hpw, hep, hct⟩
  · have hAB : (kept.contains rel.head && kept.contains rel.tail) = true := by
      simpa using h1
    have hA := ((Bool.and_eq_true _ _).mp hAB).1
    have hB := ((Bool.and_eq_true _ _).mp hAB).2
    have hkey : linkKey (mkLink rel) = relKey rel := rfl
    refine ⟨?_, ?_, ?_, ?_⟩
    · intro l hl
      rcases List.mem_append.mp hl with hl' | hl'
      · exact List.mem_cons_of_mem _ (hks l hl')
      · rcases List.mem_singleton.mp hl' with rfl
        rw [hkey]
        exact List.mem_cons_self _ _
    · rw [List.pairwise_append]
      refine ⟨hpw, List.pairwise_singleton _ _, ?_⟩
      intro a ha b hb
      rcases List.mem_singleton.mp hb with rfl
      rw [hkey]
      intro hEq
      exact h2 (contains_iff_mem.mpr (hEq ▸ hks a ha))
    · intro l hl
      rcases List.mem_append.mp hl with hl' | hl'
      · exact hep l hl'
      · rcases List.mem_singleton.mp hl' with rfl
        exact ⟨rfl, rfl, hA, hB⟩
    · intro s
      rw [List.countP_append]
      by_cases hsr : rel.relation = s
      · have hone : List.countP (fun l => l.relation == s) [mkLink rel] = 1 := by
          simp [mkLink, hsr]
        have hlt : acc.2.countP (fun l => l.relation == rel.relation) <
            relLimit rel.relation := Nat.lt_of_not_le h3
        rw [hone, ← hsr]
        omega
      · have hzero : List.countP (fun l => l.relation == s) [mkLink rel] = 0 := by
          simp [mkLink, hsr]
        rw [hzero]
        simpa using hct s

lemma foldl_relStep_inv (kept : List String) (rels : List Relationship)
    (acc : List String × List Link)
    (hks : ∀ l ∈ acc.2, linkKey l ∈ acc.1)
    (hpw : acc.2.Pairwise (fun a b => linkKey a ≠ linkKey b))
    (hep : ∀ l ∈ acc.2, l.head = l.source ∧ l.tail = l.target ∧
      kept.contains l.source = true ∧ kept.contains l.tail = true)
    (hct : ∀ s, acc.2.countP (fun l => l.relation == s) ≤ relLimit s) :
    (rels.foldl (relStep kept) acc).2.Pairwise
      (fun a b => linkKey a ≠ linkKey b) ∧
    (∀ l ∈ (rels.foldl (relStep kept) acc).2,
      l.head = l.source ∧ l.tail = l.target ∧
      kept.contains l.source = true ∧ kept.contains l.tail = true) ∧
    (∀ s, (rels.foldl (relStep kept) acc).2.countP
      (fun l => l.relation == s) ≤ relLimit s) := by
  induction rels generalizing acc with
  | nil => exact ⟨hpw, hep, hct⟩
  | cons r rs ih =>
      obtain ⟨a, b, c, d⟩ := relStep_preserves kept acc r hks hpw hep hct
      exact ih (relStep kept acc r) a b c d

lemma linksOf_spec (raw : RawGraph) :
    (linksOf raw).Pairwise (fun a b => linkKey a ≠ linkKey b) ∧
    (∀ l ∈ linksOf raw, l.head = l.source ∧ l.tail = l.target ∧
      (keptIds raw).contains l.source = true ∧
      (keptIds raw).contains l.tail = true) ∧
    (∀ s, (linksOf raw).countP (fun l => l.relation == s) ≤ relLimit s) := by
  unfold linksOf
  exact foldl_relStep_inv (keptIds raw) (noiseFilteredRels raw) ([], [])
    (by simp) (by simp) (by simp) (by simp)

lemma endpoints_in_nodes (raw : RawGraph) :
    ∀ l ∈ linksOf raw,
      (∃ n ∈ nodesOf raw, n.id = l.source) ∧
      (∃ n ∈ nodesOf raw, n.id = l.target) := by
  intro l hl
  obtain ⟨-, hts, hsrc, htgt⟩ := (linksOf_spec raw).2.1 l hl
  constructor
  · obtain ⟨n, hn, hid, -⟩ := keptIds_witness (contains_iff_mem.mp hsrc)
    refine ⟨n, mem_nodesOf.mpr ⟨hn, ?_, Or.inl ?_⟩, hid⟩
    · rw [hid]; exact hsrc
    · rw [hid]
      exact contains_iff_mem.mpr (mem_usedIds.mpr ⟨l, hl, Or.inl rfl⟩)
  · obtain ⟨n, hn, hid, -⟩ := keptIds_witness (contains_iff_mem.mp htgt)
    refine ⟨n, mem_nodesOf.mpr ⟨hn, ?_, Or.inl ?_⟩, by rw [hid, hts]⟩
    · rw [hid]; exact htgt
    · rw [hid]
      exact contains_iff_mem.mpr (mem_usedIds.mpr ⟨l, hl, Or.inr hts⟩)

/- ## C4 -/

/-- C4: for every raw payload, every output link's `source` and `target`
are the id of some node present in the output nodes list, and no two
output links share the same `(head, relation, tail)` triple. -/
theorem claim4_link_integrity (raw : RawGraph) :
    (∀ l ∈ (buildDisplayGraph raw).links,
      (∃ n ∈ (buildDisplayGraph raw).nodes, n.id = l.source) ∧
      (∃ n ∈ (buildDisplayGraph raw).nodes, n.id = l.target)) ∧
    (buildDisplayGraph raw).links.Pairwise
      (fun l₁ l₂ => ¬ (l₁.head = l₂.head ∧ l₁.relation = l₂.relation ∧
        l₁.tail = l₂.tail)) := by
  rw [buildDisplayGraph_eq]
  constructor
  · exact endpoints_in_nodes raw
  · refine ((linksOf_spec raw).1).imp ?_
    intro a b hk ⟨e1, e2, e3⟩
    exact hk (by unfold linkKey; rw [e1, e2, e3])

/- ## Quota membership of output nodes (distinct ids) -/

lemma output_job_in_quota {raw : RawGraph}
    (hN : (raw.entities.map (·.id)).Nodup) :
    ∀ n ∈ nodesOf raw, n.type = some "Job" → n ∈ jobsKept raw := by
  intro n hn ht
  obtain ⟨hnf, hkc, -⟩ := mem_nodesOf.mp hn
  rcases mem_keptIds.mp (contains_iff_mem.mp hkc) with
    ⟨m, hm, hmc, hmid⟩ | ⟨m, hm, hmid⟩ | ⟨m, hm, hmid⟩
  · obtain rfl := nf_inj hN hm hnf hmid
    rw [ht] at hmc
    exact absurd hmc (by decide)
  · obtain rfl := nf_inj hN (mem_jobsKept hm).1 hnf hmid
    exact hm
  · obtain rfl := nf_inj hN (mem_companiesKept hm).1 hnf hmid
    have h2 := (mem_companiesKept hm).2
    rw [ht] at h2
    exact absurd h2 (by decide)

lemma output_company_in_quota {raw : RawGraph}
    (hN : (raw.entities.map (·.id)).Nodup) :
    ∀ n ∈ nodesOf raw, n.type = some "Company" → n ∈ companiesKept raw := by
  intro n hn ht
  obtain ⟨hnf, hkc, -⟩ := mem_nodesOf.mp hn
  rcases mem_keptIds.mp (contains_iff_mem.mp hkc) with
    ⟨m, hm, hmc, hmid⟩ | ⟨m, hm, hmid⟩ | ⟨m, hm, hmid⟩
  · obtain rfl := nf_inj hN hm hnf hmid
    rw [ht] at hmc
    exact absurd hmc (by decide)
  · obtain rfl := nf_inj hN (mem_jobsKept hm).1 hnf hmid
    have h2 := (mem_jobsKept hm).2
    rw [ht] at h2
    exact absurd h2 (by decide)
  · obtain rfl := nf_inj hN (mem_companiesKept hm).1 hnf hmid
    exact hm

lemma core_retained (raw : RawGraph) :
    ∀ n ∈ noiseFilteredNodes raw, isCoreType n.type = true →
      n ∈ nodesOf raw := by
  intro n hn hc
  exact mem_nodesOf.mpr ⟨hn,
    contains_iff_mem.mpr (mem_keptIds.mpr (Or.inl ⟨n, hn, hc, rfl⟩)),
    Or.inr hc⟩

lemma output_type_tri {raw : RawGraph}
    (hN : (raw.entities.map (·.id)).Nodup) :
    ∀ n ∈ nodesOf raw,
      isCoreType n.type = true ∨ n.type = some "Job" ∨
        n.type = some "Company" := by
  intro n hn
  obtain ⟨hnf, hkc, -⟩ := mem_nodesOf.mp hn
  obtain ⟨m, hm, hmid, htri⟩ := keptIds_witness (contains_iff_mem.mp hkc)
  obtain rfl := nf_inj hN hm hnf hmid
  exact htri

/- ## C5 -/

/-- C5 (amended): for payloads whose entity ids are pairwise distinct, the
`Job` nodes of the output are among the top 28 jobs ranked by descending
degree over the noise-filtered relationship set, the `Company` nodes are
among the top 20 so ranked, every noise-surviving core-type entity is
retained unconditionally, and the ranking is a permutation of the filtered
job list, sorted by descending degree, with ties kept in original order
(stable).  With duplicated ids more than 28 job (or 20 company) entities
can be retained, and a noise-named core entity is dropped, so the
hypotheses are necessary. -/
theorem claim5_quotas (raw : RawGraph)
    (hN : (raw.entities.map (·.id)).Nodup) :
    (∀ n ∈ (buildDisplayGraph raw).nodes, n.type = some "Job" →
      n ∈ jobsKept raw) ∧
    (∀ n ∈ (buildDisplayGraph raw).nodes, n.type = some "Company" →
      n ∈ companiesKept raw) ∧
    (∀ n ∈ noiseFilteredNodes raw, isCoreType n.type = true →
      n ∈ (buildDisplayGraph raw).nodes) ∧
    (jobsRanked raw).Perm
      ((noiseFilteredNodes raw).filter (fun n => n.type == some "Job")) ∧
    (jobsRanked raw).Pairwise (fun a b =>
      degreeOf (noiseFilteredRels raw) b.id ≤
        degreeOf (noiseFilteredRels raw) a.id) ∧
    (∀ d, (jobsRanked raw).filter
        (fun a => degreeOf (noiseFilteredRels raw) a.id == d) =
      ((noiseFilteredNodes raw).filter (fun n => n.type == some "Job")).filter
        (fun a => degreeOf (noiseFilteredRels raw) a.id == d)) := by
  rw [buildDisplayGraph_eq]
  exact ⟨output_job_in_quota hN, output_company_in_quota hN,
    core_retained raw, sortByDegDesc_perm _ _, sortByDegDesc_sorted _ _,
    fun d => sortByDegDesc_stable _ _ d⟩

/-- Payload with duplicated entity ids: 20 `Company` entities of id `a`
and one of id `b`, with `b` ranked first by degree.  All 21 entities pass
the by-id quota filter. -/
def exDupIds : RawGraph :=
  { entities :=
      (List.replicate 20 { id := "a", name := "n", type := some "Company" }) ++
        [{ id := "b", name := "n", type := some "Company" }],
    relationships :=
      [{ head := "b", tail := "b", relation := "R" },
       { head := "b", tail := "b", relation := "R" },
       { head := "b", tail := "b", relation := "R" },
       { head := "a", tail := "a", relation := "S" }] }

/-- C5 counterexample: the output of `exDupIds` contains 21 `Company`
nodes, more than the claimed top-20 cap, because retention is keyed by id
and ids are duplicated. -/
theorem claim5_counterexample :
    (buildDisplayGraph exDupIds).nodes.countP
      (fun n => n.type == some "Company") = 21 := by decide

/-- Small well-formed payload used by witnesses: two jobs joined by one
relationship, all ids distinct. -/
def exPayload : RawGraph :=
  { entities := [{ id := "a", name := "j", type := some "Job" },
                 { id := "b", name := "k", type := some "Job" }],
    relationships := [{ head := "a", tail := "b", relation := "LINKS" }] }

/-- C5 witness. -/
theorem claim5_witness :
    ({ id := "a", name := "j", type := some "Job" } : Entity) ∈
      jobsKept exPayload :=
  (claim5_quotas exPayload (by decide)).1 _ (by decide) rfl

/-- C4 witness: the single accepted link of `exPayload` has both endpoints
among the output nodes. -/
theorem claim4_witness :
    (∃ n ∈ (buildDisplayGraph exPayload).nodes,
      n.id = (mkLink { head := "a", tail := "b", relation := "LINKS" }).source) ∧
    (∃ n ∈ (buildDisplayGraph exPayload).nodes,
      n.id = (mkLink { head := "a", tail := "b", relation := "LINKS" }).target) :=
  (claim4_link_integrity exPayload).1 _ (by decide)

/- ## C10 -/

/-- C10 (amended): for payloads whose entity ids are pairwise distinct,
every output node is of a core type or of type `Job` or `Company`, and
every output link endpoint is the id of a noise-surviving entity of one of
those types.  (With duplicated ids an arbitrary-typed entity sharing a
kept id is retained, so distinctness is necessary for the node part.) -/
theorem claim10_peripheral_excluded (raw : RawGraph)
    (hN : (raw.entities.map (·.id)).Nodup) :
    (∀ n ∈ (buildDisplayGraph raw).nodes,
      isCoreType n.type = true ∨ n.type = some "Job" ∨
        n.type = some "Company") ∧
    (∀ l ∈ (buildDisplayGraph raw).links,
      (∃ m ∈ noiseFilteredNodes raw, m.id = l.source ∧
        (isCoreType m.type = true ∨ m.type = some "Job" ∨
          m.type = some "Company")) ∧
      (∃ m ∈ noiseFilteredNodes raw, m.id = l.target ∧
        (isCoreType m.type = true ∨ m.type = some "Job" ∨
          m.type = some "Company"))) := by
  rw [buildDisplayGraph_eq]
  refine ⟨output_type_tri hN, ?_⟩
  intro l hl
  obtain ⟨-, hts, hsrc, htgt⟩ := (linksOf_spec raw).2.1 l hl
  constructor
  · obtain ⟨m, hm, hid, htri⟩ := keptIds_witness (contains_iff_mem.mp hsrc)
    exact ⟨m, hm, hid, htri⟩
  · obtain ⟨m, hm, hid, htri⟩ := keptIds_witness (contains_iff_mem.mp htgt)
    exact ⟨m, hm, hid.trans hts, htri⟩

/-- Payload in which a typeless, category-only entity shares its id with a
`Job` entity. -/
def exTypeless : RawGraph :=
  { entities := [{ id := "a", name := "j", type := some "Job" },
                 { id := "a", name := "o", type := none,
                   category := some "Support" }],
    relationships := [{ head := "a", tail := "a", relation := "R" }] }

/-- C10 counterexample: the typeless entity of `exTypeless` — neither of a
core type nor a job nor a company — appears in the output nodes, because
retention is keyed by id and it shares the kept id `a`. -/
theorem claim10_counterexample :
    ({ id := "a", name := "o", type := none, category := some "Support" } :
      Entity) ∈ (buildDisplayGraph exTypeless).nodes ∧
    isCoreType (none : Option String) = false := by decide

/-- C10 witness. -/
theorem claim10_witness :
    isCoreType ({ id := "a", name := "j", type := some "Job" } : Entity).type
        = true ∨
    ({ id := "a", name := "j", type := some "Job" } : Entity).type =
        some "Job" ∨
    ({ id := "a", name := "j", type := some "Job" } : Entity).type =
        some "Company" :=
  (claim10_peripheral_excluded exPayload (by decide)).1 _ (by decide)

/- ## Replaying already-accepted relationships (for idempotence) -/

lemma relStep_replay (kept : List String) (rels : List Relationship) :
    ∀ (seen : List String) (links : List Link),
      (∀ r ∈ rels, kept.contains r.head = true ∧
        kept.contains r.tail = true) →
      rels.Pairwise (fun a b => relKey a ≠ relKey b) →
      (∀ r ∈ rels, relKey r ∉ seen) →
      (∀ s, links.countP (fun l => l.relation == s) +
        rels.countP (fun r => r.relation == s) ≤ relLimit s) →
      (rels.foldl (relStep kept) (seen, links)).2 = links ++ rels.map mkLink := by
  induction rels with
  | nil => intro seen links _ _ _ _; simp
  | cons r rs ih =>
      intro seen links hk hpw hsn hct
      have hA := (hk r (List.mem_cons_self _ _)).1
      have hB := (hk r (List.mem_cons_self _ _)).2
      have hnotseen : seen.contains (relKey r) = false := by
        have h := hsn r (List.mem_cons_self _ _)
        rw [← Bool.not_eq_true]
        exact fun hc => h (contains_iff_mem.mp hc)
      have hcount : links.countP (fun l => l.relation == r.relation) <
          relLimit r.relation := by
        have h := hct r.relation
        rw [List.countP_cons] at h
        simp only [beq_self_eq_true, if_pos] at h
        omega
      have hm1 : r.head ∈ kept := contains_iff_mem.mp hA
      have hm2 : r.tail ∈ kept := contains_iff_mem.mp hB
      have hm3 : relKey r ∉ seen := hsn r (List.mem_cons_self _ _)
      have hstep : relStep kept (seen, links) r =
          (relKey r :: seen, links ++ [mkLink r]) := by
        unfold relStep
        simp [hA, hB, hnotseen, hm1, hm2, hm3, Nat.not_le.mpr hcount]
      rw [List.foldl_cons, hstep,
        ih (relKey r :: seen) (links ++ [mkLink r])
          (fun r' hr' => hk r' (List.mem_cons_of_mem _ hr'))
          hpw.of_cons
          (by
            intro r' hr'
            rw [List.mem_cons, not_or]
            exact ⟨fun hEq => (List.rel_of_pairwise_cons hpw hr') hEq.symm,
              hsn r' (List.mem_cons_of_mem _ hr')⟩)
          (by
            intro s
            have e1 : List.countP (fun l => l.relation == s)
                (links ++ [mkLink r]) =
                List.countP (fun l => l.relation == s) links +
                  (if (r.relation == s) = true then 1 else 0) := by
              rw [List.countP_append]
              simp [mkLink, List.countP_cons]
            have h := hct s
            rw [List.countP_cons] at h
            rw [e1]
            by_cases hb : (r.relation == s) = true
            · rw [if_pos hb]
              rw [if_pos hb] at h
              omega
            · rw [if_neg hb]
              rw [if_neg hb] at h
              omega)]
      simp

lemma mkLink_relOfLink {l : Link} (hs : l.head = l.source)
    (ht : l.tail = l.target) : mkLink (relOfLink l) = l := by
  cases l
  simp_all [mkLink, relOfLink]

/- ## C6 -/

/-- C6 (amended): for payloads whose entity ids are pairwise distinct, the
Graph Simplifier is idempotent on its own output: feeding the produced
nodes and links back in as entities and relationships yields the same
nodes and links.  With duplicated ids a second pass can shrink the result
further (see the counterexample), so distinctness is necessary. -/
theorem claim6_idempotent (raw : RawGraph)
    (hN : (raw.entities.map (·.id)).Nodup) :
    buildDisplayGraph (toRawGraph (buildDisplayGraph raw)) =
      buildDisplayGraph raw := by
  rw [buildDisplayGraph_eq raw]
  have hEnt : (toRawGraph { nodes := nodesOf raw, links := linksOf raw }).entities
      = nodesOf raw := rfl
  have hRel : (toRawGraph { nodes := nodesOf raw, links := linksOf raw }).relationships
      = (linksOf raw).map relOfLink := rfl
  have hLspec := (linksOf_spec raw).2.1
  have f2 := endpoints_in_nodes raw
  have f1 : noiseFilteredNodes
      (toRawGraph { nodes := nodesOf raw, links := linksOf raw }) =
      nodesOf raw := by
    unfold noiseFilteredNodes
    rw [hEnt, List.filter_eq_self]
    intro n hn
    have hmem : n ∈ raw.entities.filter (fun m => !isNoiseNodeName m.name) :=
      (mem_nodesOf.mp hn).1
    exact (List.mem_filter.mp hmem).2
  by_cases hNe : nodesOf raw = []
  · have hL : linksOf raw = [] := by
      rw [List.eq_nil_iff_forall_not_mem]
      intro l hl
      obtain ⟨⟨n, hn, -⟩, -⟩ := f2 l hl
      rw [hNe] at hn
      exact absurd hn (List.not_mem_nil n)
    rw [hNe, hL]
    rfl
  · have hNodupN : ((nodesOf raw).map (·.id)).Nodup := by
      have hsub : ((nodesOf raw).map (·.id)).Sublist
          ((noiseFilteredNodes raw).map (·.id)) :=
        (List.filter_sublist _).map _
      exact hsub.nodup (nf_ids_nodup hN)
    have hNodupNn : (nodesOf raw).Nodup := List.Nodup.of_map _ hNodupN
    have hjobsub : ∀ n ∈ (nodesOf raw).filter
        (fun n => n.type == some "Job"), n ∈ jobsKept raw := by
      intro n hn
      obtain ⟨h1, h2⟩ := List.mem_filter.mp hn
      exact output_job_in_quota hN n h1 (by simpa [beq_iff_eq] using h2)
    have hjoblen : ((nodesOf raw).filter
        (fun n => n.type == some "Job")).length ≤ 28 := by
      have hsp := List.subperm_of_subset (hNodupNn.filter _) hjobsub
      have h1 := hsp.length_le
      have h2 : (jobsKept raw).length ≤ 28 := List.length_take_le _ _
      omega
    have hcompsub : ∀ n ∈ (nodesOf raw).filter
        (fun n => n.type == some "Company"), n ∈ companiesKept raw := by
      intro n hn
      obtain ⟨h1, h2⟩ := List.mem_filter.mp hn
      exact output_company_in_quota hN n h1 (by simpa [beq_iff_eq] using h2)
    have hcomplen : ((nodesOf raw).filter
        (fun n => n.type == some "Company")).length ≤ 20 := by
      have hsp := List.subperm_of_subset (hNodupNn.filter _) hcompsub
      have h1 := hsp.length_le
      have h2 : (companiesKept raw).length ≤ 20 := List.length_take_le _ _
      omega
    have g4 : ∀ x : Entity, x ∈ jobsKept
        (toRawGraph { nodes := nodesOf raw, links := linksOf raw }) ↔
        x ∈ (nodesOf raw).filter (fun n => n.type == some "Job") := by
      intro x
      unfold jobsKept jobsRanked
      rw [f1]
      rw [List.take_of_length_le
        (by rw [(sortByDegDesc_perm _ _).length_eq]; exact hjoblen)]
      exact (sortByDegDesc_perm _ _).mem_iff
    have g5 : ∀ x : Entity, x ∈ companiesKept
        (toRawGraph { nodes := nodesOf raw, links := linksOf raw }) ↔
        x ∈ (nodesOf raw).filter (fun n => n.type == some "Company") := by
      intro x
      unfold companiesKept companiesRanked
      rw [f1]
      rw [List.take_of_length_le
        (by rw [(sortByDegDesc_perm _ _).length_eq]; exact hcomplen)]
      exact (sortByDegDesc_perm _ _).mem_iff
    have g6 : ∀ n ∈ nodesOf raw, n.id ∈ keptIds
        (toRawGraph { nodes := nodesOf raw, links := linksOf raw }) := by
      intro n hn
      rcases output_type_tri hN n hn with hc | hj | hcp
      · refine mem_keptIds.mpr (Or.inl ⟨n, ?_, hc, rfl⟩)
        rw [f1]; exact hn
      · refine mem_keptIds.mpr (Or.inr (Or.inl ⟨n, ?_, rfl⟩))
        exact (g4 n).mpr (List.mem_filter.mpr ⟨hn, by simp [hj]⟩)
      · refine mem_keptIds.mpr (Or.inr (Or.inr ⟨n, ?_, rfl⟩))
        exact (g5 n).mpr (List.mem_filter.mpr ⟨hn, by simp [hcp]⟩)
    have g1 : noiseFilteredRels
        (toRawGraph { nodes := nodesOf raw, links := linksOf raw }) =
        (linksOf raw).map relOfLink := by
      unfold noiseFilteredRels
      rw [hRel, List.filter_eq_self]
      intro r hr
      obtain ⟨l, hl, rfl⟩ := List.mem_map.mp hr
      obtain ⟨⟨n₁, hn₁, hid₁⟩, ⟨n₂, hn₂, hid₂⟩⟩ := f2 l hl
      obtain ⟨hh, ht, -, -⟩ := hLspec l hl
      apply (Bool.and_eq_true _ _).mpr
      constructor
      · apply contains_iff_mem.mpr
        show l.head ∈ validNodeIds _
        unfold validNodeIds
        rw [f1]
        exact List.mem_map.mpr ⟨n₁, hn₁, hid₁.trans hh.symm⟩
      · apply contains_iff_mem.mpr
        show l.tail ∈ validNodeIds _
        unfold validNodeIds
        rw [f1]
        exact List.mem_map.mpr ⟨n₂, hn₂, hid₂.trans ht.symm⟩
    have g7 : linksOf
        (toRawGraph { nodes := nodesOf raw, links := linksOf raw }) =
        linksOf raw := by
      show ((noiseFilteredRels _).foldl (relStep (keptIds _)) ([], [])).2 =
        linksOf raw
      rw [g1]
      rw [relStep_replay _ _ [] []
        (by
          intro r hr
          obtain ⟨l, hl, rfl⟩ := List.mem_map.mp hr
          obtain ⟨⟨n₁, hn₁, hid₁⟩, ⟨n₂, hn₂, hid₂⟩⟩ := f2 l hl
          obtain ⟨hh, ht, -, -⟩ := hLspec l hl
          constructor
          · apply contains_iff_mem.mpr
            show l.head ∈ _
            rw [show l.head = n₁.id from hh.trans hid₁.symm]
            exact g6 n₁ hn₁
          · apply contains_iff_mem.mpr
            show l.tail ∈ _
            rw [show l.tail = n₂.id from ht.trans hid₂.symm]
            exact g6 n₂ hn₂)
        (List.pairwise_map.mpr (linksOf_spec raw).1)
        (by intro r hr; exact List.not_mem_nil _)
        (by
          intro s
          rw [List.countP_map]
          simpa using (linksOf_spec raw).2.2 s)]
      rw [List.nil_append, List.map_map]
      have hmc : List.map (mkLink ∘ relOfLink) (linksOf raw) =
          List.map id (linksOf raw) :=
        List.map_congr_left
          (fun l hl => mkLink_relOfLink (hLspec l hl).1 (hLspec l hl).2.1)
      rw [hmc, List.map_id]
    have g8 : usedIds
        (toRawGraph { nodes := nodesOf raw, links := linksOf raw }) =
        usedIds raw := by
      unfold usedIds
      rw [g7]
    have g9 : nodesOf
        (toRawGraph { nodes := nodesOf raw, links := linksOf raw }) =
        nodesOf raw := by
      show (noiseFilteredNodes _).filter _ = nodesOf raw
      rw [f1, List.filter_eq_self]
      intro n hn
      apply (Bool.and_eq_true _ _).mpr
      constructor
      · exact contains_iff_mem.mpr (g6 n hn)
      · obtain ⟨-, -, hor⟩ := mem_nodesOf.mp hn
        apply (Bool.or_eq_true _ _).mpr
        rcases hor with hu | hc
        · left; rw [g8]; exact hu
        · right; exact hc
    rw [buildDisplayGraph_eq
      (toRawGraph { nodes := nodesOf raw, links := linksOf raw }), g9, g7]

/-- C6 counterexample: with duplicated ids (`exDupIds`), a second pass
over the simplifier's own output shrinks it further. -/
theorem claim6_counterexample :
    buildDisplayGraph (toRawGraph (buildDisplayGraph exDupIds)) ≠
      buildDisplayGraph exDupIds := by decide

/-- C6 witness. -/
theorem claim6_witness :
    buildDisplayGraph (toRawGraph (buildDisplayGraph exPayload)) =
      buildDisplayGraph exPayload :=
  claim6_idempotent exPayload (by decide)
